import Mathlib

/-!
Verification development for the procurement field extractor
(`src/extractor.py`, function `extract_procurement_fields`).

The Python code is shallowly embedded over `List Char`:
* Python strings are lists of unicode scalar characters.
* Python floats are modelled as exact rationals (`ℚ`); every numeric value
  handled by the extractor is produced by parsing a short decimal literal or
  by summing multiples of `1/100`, where rational and IEEE arithmetic agree.
* The regular expressions of the source are compiled by hand into
  deterministic scanners.  Python's leftmost-match `re.search` semantics,
  the greedy `\d+(?:\.\d+)?` number token together with the one reachable
  backtracking case (dropping the fractional part when a trailing `\b`
  fails), alternation order inside unit groups, and word boundaries are
  reproduced exactly.
* Character classes (`\s`, `\w`, `str.strip`, `str.splitlines`,
  `str.upper`) are modelled on the character ranges exercised by this
  repository: ASCII, general unicode whitespace, CJK unified ideographs and
  fullwidth forms.
-/

namespace Procurement

/-- Python `str.isspace` / regex `\s` character class (whitespace used by
`str.strip()` with no arguments), over ASCII plus the common unicode
whitespace codepoints. -/
def isPySpace (c : Char) : Bool :=
  let n := c.toNat
  (9 ≤ n && n ≤ 13) || (28 ≤ n && n ≤ 31) || n == 32 || n == 0x85 || n == 0xA0 ||
  n == 0x1680 || (0x2000 ≤ n && n ≤ 0x200A) || n == 0x2028 || n == 0x2029 ||
  n == 0x202F || n == 0x205F || n == 0x3000

/-- The line-boundary characters recognised by Python `str.splitlines`
(`\n`, `\v`, `\f`, `\r`, FS, GS, RS, NEL, LS, PS; `\r\n` is handled as a
pair by the splitter itself). -/
def isLineBreakChar (c : Char) : Bool :=
  let n := c.toNat
  (10 ≤ n && n ≤ 13) || (28 ≤ n && n ≤ 30) || n == 0x85 || n == 0x2028 || n == 0x2029

/-- Python regex `\w` (word character, used for `\b` boundaries), on the
ranges exercised by the extractor: ASCII alphanumerics, underscore, CJK
unified ideographs, and fullwidth alphanumerics. -/
def isWordChar (c : Char) : Bool :=
  c.isAlphanum || c == '_' || (0x4E00 ≤ c.toNat && c.toNat ≤ 0x9FFF) ||
  (0xFF10 ≤ c.toNat && c.toNat ≤ 0xFF19) || (0xFF21 ≤ c.toNat && c.toNat ≤ 0xFF3A) ||
  (0xFF41 ≤ c.toNat && c.toNat ≤ 0xFF5A)

/-- Python `s.strip()`: drop leading and trailing whitespace. -/
def pyStrip (s : List Char) : List Char :=
  ((s.dropWhile isPySpace).reverse.dropWhile isPySpace).reverse

/-- Python `s.strip(cs)`: drop the characters of `cs` from both ends. -/
def stripBoth (cs : List Char) (s : List Char) : List Char :=
  ((s.dropWhile cs.contains).reverse.dropWhile cs.contains).reverse

/-- Worker for `pySplitlines`: accumulates the current line in reverse.
A lone `\r` is covered by `isLineBreakChar`; the pair `\r\n` is one
boundary. -/
def slAux : List Char → List Char → List (List Char)
  | [], acc => if acc.isEmpty then [] else [acc.reverse]
  | '\r' :: '\n' :: rest, acc => acc.reverse :: slAux rest []
  | c :: rest, acc =>
    if isLineBreakChar c then acc.reverse :: slAux rest []
    else slAux rest (c :: acc)

/-- Python `s.splitlines()`. -/
def pySplitlines (s : List Char) : List (List Char) := slAux s []

/-- The line normalizer `[ln.strip() for ln in text.splitlines() if ln.strip()]` from the
source: the trimmed non-empty lines, in order. -/
def normLines (text : List Char) : List (List Char) :=
  ((pySplitlines text).map pyStrip).filter (fun l => !l.isEmpty)

/-- Python `" ".join(lines)`. -/
def joinSpace (ls : List (List Char)) : List Char := List.intercalate [' '] ls

/-- A decimal token matched by `\d+(?:\.\d+)?`: integer digits and an
optional non-empty fraction digit list. -/
structure NumTok where
  intPart : List Char
  fracPart : Option (List Char)
deriving DecidableEq, Repr

/-- The matched text of a `NumTok`. -/
def render (n : NumTok) : List Char :=
  n.intPart ++ (match n.fracPart with | some f => '.' :: f | none => [])

/-- Greedy match of `\d+(?:\.\d+)?` at the head of `s`; returns the token
and the unconsumed remainder.  (Python's `\d` restricted to ASCII digits,
the only digits the repository's inputs use.) -/
def scanNum (s : List Char) : Option (NumTok × List Char) :=
  if (s.takeWhile Char.isDigit).isEmpty then none
  else
    match s.dropWhile Char.isDigit with
    | '.' :: r2 =>
      if (r2.takeWhile Char.isDigit).isEmpty then
        some (⟨s.takeWhile Char.isDigit, none⟩, s.dropWhile Char.isDigit)
      else some (⟨s.takeWhile Char.isDigit, some (r2.takeWhile Char.isDigit)⟩,
        r2.dropWhile Char.isDigit)
    | r => some (⟨s.takeWhile Char.isDigit, none⟩, r)

/-- A `\b` immediately after a word character: the next character must be
absent or a non-word character. -/
def boundaryOK : List Char → Bool
  | [] => true
  | c :: _ => !isWordChar c

/-- Alternation over unit words followed by `\b`, tried in source order
(Python alternation backtracks to the next branch when `\b` fails). -/
def matchUnits (units : List (List Char)) (s : List Char) : Option (List Char × List Char) :=
  units.findSome? (fun u =>
    if u.isPrefixOf s then
      let rest := s.drop u.length
      if boundaryOK rest then some (u, rest) else none
    else none)

/-- Anchored match of `\d+(?:\.\d+)?\s*(u₁|u₂|…)\b` at the head of `s`.
No backtracking into the number token is needed: no unit word begins with
a digit, a dot or whitespace. -/
def anchoredNumUnit (units : List (List Char)) (s : List Char) : Option (NumTok × List Char) :=
  match scanNum s with
  | none => none
  | some (n, r) =>
    match matchUnits units (r.dropWhile isPySpace) with
    | some (_, rest) => some (n, rest)
    | none => none

/-- Python `re.search` of `\d+(?:\.\d+)?\s*(u₁|…)\b`, returning the captured
numeric text of the leftmost match. -/
def searchNumUnit (units : List (List Char)) : List Char → Option (List Char)
  | [] => none
  | c :: rest =>
    match anchoredNumUnit units (c :: rest) with
    | some (n, _) => some (render n)
    | none => searchNumUnit units rest

/-- Anchored `(\d+(?:\.\d+)?)\b`: when the boundary after the full number
fails, Python backtracks the optional fraction; the only branch that can
restore the boundary drops the fraction entirely (the character after the
integer part is then `'.'`, a non-word character). -/
def matchNumB (s : List Char) : Option (List Char) :=
  match scanNum s with
  | none => none
  | some (n, r) =>
    if boundaryOK r then some (render n)
    else
      match n.fracPart with
      | some _ => some n.intPart
      | none => none

/-- The fullwidth yen sign of price pattern 2. -/
def yenChar : Char := '￥'

/-- Python `re.search` of `￥\s*(?P<price>\d+(?:\.\d+)?)\b`. -/
def searchYen : List Char → Option (List Char)
  | [] => none
  | c :: rest =>
    if c = yenChar then
      match matchNumB (rest.dropWhile isPySpace) with
      | some cap => some cap
      | none => searchYen rest
    else searchYen rest

def rmbChars : List Char := ['R', 'M', 'B']

/-- Python `re.search` of `RMB\s*(?P<price>\d+(?:\.\d+)?)\b`. -/
def searchRMB : List Char → Option (List Char)
  | [] => none
  | c :: rest =>
    if rmbChars.isPrefixOf (c :: rest) then
      match matchNumB (((c :: rest).drop 3).dropWhile isPySpace) with
      | some cap => some cap
      | none => searchRMB rest
    else searchRMB rest

def qtyLabel : List Char := ['数', '量']

def colonOK (c : Char) : Bool := c == ':' || c == '：'

/-- Python `re.search` of `数量\s*[:：]?\s*(?P<qty>\d+(?:\.\d+)?)\b`.  When the
optional colon is taken and no number follows, skipping the colon cannot
help (a digit cannot match a colon), so the scan moves to the next start
position, as Python does. -/
def searchQtyLabel : List Char → Option (List Char)
  | [] => none
  | c :: rest =>
    if qtyLabel.isPrefixOf (c :: rest) then
      match matchNumB (match ((c :: rest).drop 2).dropWhile isPySpace with
        | c2 :: r' =>
          if colonOK c2 then r'.dropWhile isPySpace else c2 :: r'
        | [] => []) with
      | some cap => some cap
      | none => searchQtyLabel rest
    else searchQtyLabel rest

def specLabels : List (List Char) := [['型', '号'], ['规', '格'], ['尺', '寸']]

/-- Python `re.search` of `(型号|规格|尺寸)\s*[:：]?\s*\S+` as a Boolean: the
pattern matches at a label occurrence exactly when some non-whitespace
character follows the label (if the first non-space character is a colon,
backtracking lets the colon itself satisfy `\S+`). -/
def hasSpecLabel : List Char → Bool
  | [] => false
  | c :: rest =>
    (specLabels.any (fun lbl =>
      lbl.isPrefixOf (c :: rest) && ((c :: rest).drop lbl.length).any (fun ch => !isPySpace ch)))
    || hasSpecLabel rest

/-- Units of price pattern 1, `(元|块)`. -/
def priceUnits : List (List Char) := [['元'], ['块']]

/-- Units of specification pattern 1, `(米|m|M)`. -/
def specUnits1 : List (List Char) := [['米'], ['m'], ['M']]

/-- Units of specification pattern 2, `(cm|CM|毫米|mm|MM)`. -/
def specUnits2 : List (List Char) := [['c', 'm'], ['C', 'M'], ['毫', '米'], ['m', 'm'], ['M', 'M']]

/-- Units of specification pattern 3, `(瓦|W|w)`. -/
def specUnits3 : List (List Char) := [['瓦'], ['W'], ['w']]

/-- Units of the first-line fallback and of the item-name sub pattern,
`(米|m|cm|mm|瓦|W)`. -/
def nameUnits : List (List Char) := [['米'], ['m'], ['c', 'm'], ['m', 'm'], ['瓦'], ['W']]

/-- Units of quantity pattern (a), `(个|条|套|箱|件|只|根|卷)`. -/
def qtyUnits : List (List Char) :=
  [['个'], ['条'], ['套'], ['箱'], ['件'], ['只'], ['根'], ['卷']]

/-- Decimal value of a digit string. -/
def natOfDigits (ds : List Char) : ℕ := ds.foldl (fun a c => 10 * a + (c.toNat - 48)) 0

/-- The source's `_to_float`: Python `float()` on the decimal forms the
capture groups of this module can produce (`\d+(\.\d+)?`, and also the
degenerate `d+.`, `.d+` forms float accepts); `none` on anything else,
modelling the `except`-to-`None` fallback. -/
def to_float (s : List Char) : Option ℚ :=
  match s.dropWhile Char.isDigit with
  | [] =>
    if (s.takeWhile Char.isDigit).isEmpty then none
    else some (natOfDigits (s.takeWhile Char.isDigit))
  | '.' :: r2 =>
    if (r2.dropWhile Char.isDigit).isEmpty then
      if (s.takeWhile Char.isDigit).isEmpty && (r2.takeWhile Char.isDigit).isEmpty then none
      else some ((natOfDigits (s.takeWhile Char.isDigit) : ℚ) +
        (natOfDigits (r2.takeWhile Char.isDigit) : ℚ) / 10 ^ (r2.takeWhile Char.isDigit).length)
    else none
  | _ => none

/-- The inner loop of the price pass: the three patterns tried in order on
one line, returning the first captured numeric text. -/
def price_capture_line (ln : List Char) : Option (List Char) :=
  match searchNumUnit priceUnits ln with
  | some cap => some cap
  | none =>
    match searchYen ln with
    | some cap => some cap
    | none => searchRMB ln

/-- The inner loop of the quantity pass: pattern (a) then pattern (b) on
one line. -/
def qty_capture_line (ln : List Char) : Option (List Char) :=
  match searchNumUnit qtyUnits ln with
  | some cap => some cap
  | none => searchQtyLabel ln

/-- The line-major loop shared by the price and quantity passes: on the
first line whose patterns capture, parse the capture; a parse failure
leaves the found-value unset, so the outer loop moves to the next line
(the `break`/`is not None` interplay of the source). -/
def firstParsed (cap : List Char → Option (List Char)) : List (List Char) → Option ℚ
  | [] => none
  | ln :: rest =>
    match cap ln with
    | some c =>
      match to_float c with
      | some v => some v
      | none => firstParsed cap rest
    | none => firstParsed cap rest

/-- Function `found_price` of the source. -/
def found_price (lines : List (List Char)) : Option ℚ := firstParsed price_capture_line lines

/-- Function `found_qty` of the source. -/
def found_qty (lines : List (List Char)) : Option ℚ := firstParsed qty_capture_line lines

/-- Python `any(re.search(pat, ln) for pat in spec_patterns)`. -/
def specLineMatch (ln : List Char) : Bool :=
  (searchNumUnit specUnits1 ln).isSome || (searchNumUnit specUnits2 ln).isSome ||
  (searchNumUnit specUnits3 ln).isSome || hasSpecLabel ln

/-- Function `found_spec` of the source: the first line matching any specification
pattern, else the first line if it contains `number + (米|m|cm|mm|瓦|W)\b`. -/
def found_spec (lines : List (List Char)) : Option (List Char) :=
  match lines.find? specLineMatch with
  | some ln => some ln
  | none =>
    match lines with
    | ln0 :: _ => if (searchNumUnit nameUnits ln0).isSome then some ln0 else none
    | [] => none

/-- List `noisy_words` of the source, in source order. -/
def noisy_words : List (List Char) :=
  [['价', '格'], ['便', '宜'], ['要', '不', '要'], ['看', '看'], ['可', '以', '吗'],
   ['行', '不', '行'], ['怎', '么', '样'], ['报', '个', '价']]

/-- Structural worker for `removeAll`; each step consumes at least one
character, so fuel `s.length` never runs out (at fuel 0 the remaining
input is `[]` and both base cases agree). -/
def removeAllGo (pat : List Char) : Nat → List Char → List Char
  | 0, s => s
  | _ + 1, [] => []
  | fuel + 1, c :: rest =>
    if pat.isPrefixOf (c :: rest) && !pat.isEmpty then
      removeAllGo pat fuel (rest.drop (pat.length - 1))
    else c :: removeAllGo pat fuel rest

/-- Python `s.replace(pat, "")`: remove all non-overlapping occurrences of
`pat`, scanning left to right (identity when `pat` is empty). -/
def removeAll (pat : List Char) (s : List Char) : List Char :=
  removeAllGo pat s.length s

/-- Structural worker for `subNumUnit`: an anchored match always consumes
at least one character (`anchoredNumUnit_rest_length`), so fuel `s.length`
never runs out (at fuel 0 the remaining input is `[]` and the base cases
agree). -/
def subNumUnitGo (units : List (List Char)) : Nat → List Char → List Char
  | 0, s => s
  | _ + 1, [] => []
  | fuel + 1, c :: rest =>
    match anchoredNumUnit units (c :: rest) with
    | some (_, restAfter) => subNumUnitGo units fuel restAfter
    | none => c :: subNumUnitGo units fuel rest

/-- Python `re.sub(r"\d+(?:\.\d+)?\s*(米|m|cm|mm|瓦|W)\b", "", s)`: delete every
leftmost match and continue scanning after it. -/
def subNumUnit (units : List (List Char)) (s : List Char) : List Char :=
  subNumUnitGo units s.length s

/-- The strip set of the item-name pass, `" ,，:：-—/"`. -/
def stripSet : List Char := [' ', ',', '，', ':', '：', '-', '—', '/']

/-- The cleaning pipeline applied to the first line: filler removal in
fixed order, number+unit removal, then strip of the punctuation set. -/
def cleaned_first (first : List Char) : List Char :=
  stripBoth stripSet (subNumUnit nameUnits (noisy_words.foldl (fun acc w => removeAll w acc) first))

/-- The item name: the cleaned first line if non-empty, else the original
first line. -/
def itemNameOf (first : List Char) : List Char :=
  if (cleaned_first first).isEmpty then first else cleaned_first first

def priceBonus (lines : List (List Char)) : ℚ :=
  if (found_price lines).isSome then 20 / 100 else 0

def specBonus (lines : List (List Char)) : ℚ :=
  if (found_spec lines).isSome then 15 / 100 else 0

def qtyBonus (lines : List (List Char)) : ℚ :=
  if (found_qty lines).isSome then 10 / 100 else 0

def nameBonus (first : List Char) : ℚ :=
  if (cleaned_first first).isEmpty then 5 / 100 else 15 / 100

/-- Python `max(a, b)` (returns the first argument on ties). -/
def pmax (a b : ℚ) : ℚ := if a < b then b else a

/-- Python `min(a, b)` (returns the first argument on ties). -/
def pmin (a b : ℚ) : ℚ := if b < a then b else a

/-- Round to the nearest integer, ties to even (Python `round`).  The
extractor only ever rounds sums of multiples of `1/20`, where the binary
floating-point `round(x, 2)` and this exact rational rounding agree. -/
def roundHalfEven (x : ℚ) : ℤ :=
  let f := Rat.floor x
  let r := x - (f : ℚ)
  if r < 1 / 2 then f
  else if (1 : ℚ) / 2 < r then f + 1
  else if f % 2 = 0 then f else f + 1

/-- Python `round(q, 2)`. -/
def round2 (q : ℚ) : ℚ := ((roundHalfEven (q * 100) : ℤ) : ℚ) / 100

def usdChars : List Char := ['U', 'S', 'D']

def cnyChars : List Char := ['C', 'N', 'Y']

/-- Python `str.upper` restricted to ASCII (the only case-folding relevant
to the `"USD"` detection). -/
def pyToUpper (c : Char) : Char :=
  if 97 ≤ c.toNat && c.toNat ≤ 122 then Char.ofNat (c.toNat - 32) else c

def pyUpper (s : List Char) : List Char := s.map pyToUpper

/-- Python's substring test `pat in s`. -/
def pyContainsSub (pat : List Char) : List Char → Bool
  | [] => pat.isEmpty
  | c :: rest => pat.isPrefixOf (c :: rest) || pyContainsSub pat rest

/-- The check `"$" in text or "USD" in text.upper()`. -/
def detectUSD (text : List Char) : Bool :=
  pyContainsSub ['$'] text || pyContainsSub usdChars (pyUpper text)

/-- The record returned by `extract_procurement_fields`. -/
structure ProcurementRecord where
  item_name : Option (List Char)
  specification : Option (List Char)
  quantity : Option ℚ
  unit_price : Option ℚ
  currency : List Char
  source_text : List Char
  confidence : ℚ
deriving DecidableEq, Repr

/-- The record assembled when at least one normalized line exists, in the
order of the source: base confidence 0.50, then the price, specification,
quantity and item-name passes, each adding its bonus, and the final
`max(0.0, min(1.0, round(conf, 2)))`. -/
def assemble (text ln0 : List Char) (rest : List (List Char)) : ProcurementRecord :=
  { item_name := some (itemNameOf ln0)
    specification := found_spec (ln0 :: rest)
    quantity := found_qty (ln0 :: rest)
    unit_price := found_price (ln0 :: rest)
    currency := if detectUSD text then usdChars else cnyChars
    source_text := joinSpace (ln0 :: rest)
    confidence := pmax 0 (pmin 1 (round2 ((((1 / 2 + priceBonus (ln0 :: rest)) +
      specBonus (ln0 :: rest)) + qtyBonus (ln0 :: rest)) + nameBonus ln0))) }

/-- Function `extract_procurement_fields` of the source. -/
def extract_procurement_fields (raw_text : List Char) : ProcurementRecord :=
  match normLines (pyStrip raw_text) with
  | [] =>
    { item_name := none, specification := none, quantity := none, unit_price := none
      currency := cnyChars, source_text := pyStrip raw_text, confidence := 0 }
  | ln0 :: rest => assemble (pyStrip raw_text) ln0 rest

theorem dropWhile_len_le (p : Char → Bool) (l : List Char) :
    (l.dropWhile p).length ≤ l.length :=
  (List.dropWhile_sublist p).length_le

theorem scanNum_rest_length {s r : List Char} {n : NumTok}
    (h : scanNum s = some (n, r)) : r.length < s.length := by
  have hlen : (s.takeWhile Char.isDigit).length + (s.dropWhile Char.isDigit).length
      = s.length := by
    conv_rhs =>
      rw [← List.takeWhile_append_dropWhile (p := Char.isDigit) (l := s)]
    rw [List.length_append]
  unfold scanNum at h
  split at h
  · simp at h
  · rename_i hd
    have hpos : 0 < (s.takeWhile Char.isDigit).length := by
      cases hT : s.takeWhile Char.isDigit with
      | nil => rw [hT] at hd; simp at hd
      | cons a l => simp [hT]
    have hdroplt : (s.dropWhile Char.isDigit).length < s.length := by omega
    split at h
    · rename_i r2 heq
      have hr2len : r2.length + 1 = (s.dropWhile Char.isDigit).length := by
        rw [heq]; simp
      split at h
      · simp only [Option.some.injEq, Prod.mk.injEq] at h
        rw [← h.2]
        exact hdroplt
      · simp only [Option.some.injEq, Prod.mk.injEq] at h
        rw [← h.2]
        have := dropWhile_len_le Char.isDigit r2
        omega
    · simp only [Option.some.injEq, Prod.mk.injEq] at h
      rw [← h.2]
      exact hdroplt

theorem matchUnits_rest_length {units : List (List Char)} {s u rest : List Char}
    (h : matchUnits units s = some (u, rest)) : rest.length ≤ s.length := by
  unfold matchUnits at h
  obtain ⟨w, hw, hww⟩ := List.exists_of_findSome?_eq_some h
  by_cases hp : w.isPrefixOf s
  · simp only [hp, if_true] at hww
    by_cases hb : boundaryOK (s.drop w.length)
    · simp only [hb, if_true, Option.some.injEq, Prod.mk.injEq] at hww
      rw [← hww.2]
      simp
    · simp [hb] at hww
  · simp [hp] at hww

theorem anchoredNumUnit_rest_length {units : List (List Char)} {s rest : List Char} {n : NumTok}
    (h : anchoredNumUnit units s = some (n, rest)) : rest.length < s.length := by
  unfold anchoredNumUnit at h
  split at h
  · simp at h
  · rename_i n' r hs
    split at h
    · rename_i u rest' hm
      simp only [Option.some.injEq, Prod.mk.injEq] at h
      have h1 : rest'.length ≤ (r.dropWhile isPySpace).length := matchUnits_rest_length hm
      have h2 : (r.dropWhile isPySpace).length ≤ r.length := dropWhile_len_le _ _
      have h3 : r.length < s.length := scanNum_rest_length hs
      rw [← h.2]
      omega
    · simp at h

theorem extract_eq_assemble {raw ln0 : List Char} {rest : List (List Char)}
    (h : normLines (pyStrip raw) = ln0 :: rest) :
    extract_procurement_fields raw = assemble (pyStrip raw) ln0 rest := by
  unfold extract_procurement_fields
  rw [h]

theorem extract_eq_zero {raw : List Char}
    (h : normLines (pyStrip raw) = []) :
    extract_procurement_fields raw =
      { item_name := none, specification := none, quantity := none, unit_price := none
        currency := cnyChars, source_text := pyStrip raw, confidence := 0 } := by
  unfold extract_procurement_fields
  rw [h]

theorem breakChar_isPySpace {c : Char} (h : isLineBreakChar c = true) :
    isPySpace c = true := by
  simp only [isLineBreakChar, Bool.or_eq_true, Bool.and_eq_true, decide_eq_true_eq,
    beq_iff_eq] at h
  simp only [isPySpace, Bool.or_eq_true, Bool.and_eq_true, decide_eq_true_eq, beq_iff_eq]
  omega

theorem pyStrip_eq_nil_of_all {s : List Char} (h : ∀ c ∈ s, isPySpace c = true) :
    pyStrip s = [] := by
  unfold pyStrip
  rw [List.dropWhile_eq_nil_iff.mpr h]
  simp

theorem mem_pyStrip_of_not_space {s : List Char} {c : Char}
    (hc : c ∈ s) (hns : ¬ isPySpace c = true) : c ∈ pyStrip s := by
  have key : ∀ (l : List Char), c ∈ l → c ∈ l.dropWhile isPySpace := by
    intro l hl
    induction l with
    | nil => simp at hl
    | cons a t ih =>
      by_cases hpa : isPySpace a = true
      · rw [List.dropWhile_cons_of_pos hpa]
        rcases List.mem_cons.mp hl with h1 | h2
        · subst h1; exact absurd hpa hns
        · exact ih h2
      · rw [List.dropWhile_cons_of_neg hpa]
        exact hl
  unfold pyStrip
  rw [List.mem_reverse]
  apply key
  rw [List.mem_reverse]
  exact key s hc

theorem mem_of_mem_slAux :
    ∀ (s acc : List Char), ∀ ln ∈ slAux s acc, ∀ c ∈ ln, c ∈ s ∨ c ∈ acc := by
  intro s acc
  induction s, acc using slAux.induct with
  | case1 acc hacc =>
    intro ln hln c hc
    rw [slAux.eq_1, if_pos hacc] at hln
    simp at hln
  | case2 acc hacc =>
    intro ln hln c hc
    rw [slAux.eq_1, if_neg hacc] at hln
    simp only [List.mem_singleton] at hln
    subst hln
    right
    exact List.mem_reverse.mp hc
  | case3 rest acc ih =>
    intro ln hln c hc
    rw [slAux.eq_2] at hln
    rcases List.mem_cons.mp hln with h1 | h2
    · subst h1
      right
      exact List.mem_reverse.mp hc
    · rcases ih ln h2 c hc with h3 | h3
      · left; simp [h3]
      · simp at h3
  | case4 c0 rest acc hside hbr ih =>
    intro ln hln c hc
    rw [slAux.eq_3 _ _ _ hside, if_pos hbr] at hln
    rcases List.mem_cons.mp hln with h1 | h2
    · subst h1
      right
      exact List.mem_reverse.mp hc
    · rcases ih ln h2 c hc with h3 | h3
      · left; simp [h3]
      · simp at h3
  | case5 c0 rest acc hside hbr ih =>
    intro ln hln c hc
    rw [slAux.eq_3 _ _ _ hside, if_neg hbr] at hln
    rcases ih ln hln c hc with h3 | h3
    · left; simp [h3]
    · rcases List.mem_cons.mp h3 with h4 | h5
      · left; simp [h4]
      · right; exact h5

theorem exists_line_of_mem_slAux :
    ∀ (s acc : List Char), ∀ c, (c ∈ s ∨ c ∈ acc) → ¬ isLineBreakChar c = true →
      ∃ ln ∈ slAux s acc, c ∈ ln := by
  intro s acc
  induction s, acc using slAux.induct with
  | case1 acc hacc =>
    intro c hc hbr
    rcases hc with h1 | h2
    · simp at h1
    · rw [List.isEmpty_iff] at hacc
      subst hacc
      simp at h2
  | case2 acc hacc =>
    intro c hc hbr
    rcases hc with h1 | h2
    · simp at h1
    · rw [slAux.eq_1, if_neg hacc]
      exact ⟨acc.reverse, List.mem_singleton.mpr rfl, List.mem_reverse.mpr h2⟩
  | case3 rest acc ih =>
    intro c hc hbr
    rw [slAux.eq_2]
    rcases hc with h1 | h2
    · rcases List.mem_cons.mp h1 with h3 | h4
      · subst h3
        exact absurd (by decide) hbr
      · rcases List.mem_cons.mp h4 with h5 | h6
        · subst h5
          exact absurd (by decide) hbr
        · obtain ⟨ln, hln, hcln⟩ := ih c (Or.inl h6) hbr
          exact ⟨ln, List.mem_cons_of_mem _ hln, hcln⟩
    · exact ⟨acc.reverse, List.mem_cons_self _ _, List.mem_reverse.mpr h2⟩
  | case4 c0 rest acc hside hb ih =>
    intro c hc hbr
    rw [slAux.eq_3 _ _ _ hside, if_pos hb]
    rcases hc with h1 | h2
    · rcases List.mem_cons.mp h1 with h3 | h4
      · subst h3
        exact absurd hb hbr
      · obtain ⟨ln, hln, hcln⟩ := ih c (Or.inl h4) hbr
        exact ⟨ln, List.mem_cons_of_mem _ hln, hcln⟩
    · exact ⟨acc.reverse, List.mem_cons_self _ _, List.mem_reverse.mpr h2⟩
  | case5 c0 rest acc hside hb ih =>
    intro c hc hbr
    rw [slAux.eq_3 _ _ _ hside, if_neg hb]
    rcases hc with h1 | h2
    · rcases List.mem_cons.mp h1 with h3 | h4
      · subst h3
        exact ih c (Or.inr (List.mem_cons_self _ _)) hbr
      · exact ih c (Or.inl h4) hbr
    · exact ih c (Or.inr (List.mem_cons_of_mem _ h2)) hbr

theorem normLines_eq_nil_iff (s : List Char) :
    normLines s = [] ↔ ∀ c ∈ s, isPySpace c = true := by
  constructor
  · intro h c hc
    by_contra hns
    have hbr : ¬ isLineBreakChar c = true := fun hb => hns (breakChar_isPySpace hb)
    obtain ⟨ln, hln, hcln⟩ := exists_line_of_mem_slAux s [] c (Or.inl hc) hbr
    have hmem : pyStrip ln ∈ (pySplitlines s).map pyStrip :=
      List.mem_map_of_mem pyStrip hln
    have hcstrip : c ∈ pyStrip ln := mem_pyStrip_of_not_space hcln hns
    have hnonempty : ¬ (pyStrip ln).isEmpty = true := by
      cases hS : pyStrip ln
      · rw [hS] at hcstrip; simp at hcstrip
      · simp
    have : pyStrip ln ∈ normLines s := by
      unfold normLines
      rw [List.mem_filter]
      exact ⟨hmem, by simpa using hnonempty⟩
    rw [h] at this
    simp at this
  · intro h
    unfold normLines
    rw [List.filter_eq_nil_iff]
    intro l hl
    rw [List.mem_map] at hl
    obtain ⟨ln, hln, hmap⟩ := hl
    have hall : ∀ c ∈ ln, isPySpace c = true := by
      intro c hc
      rcases mem_of_mem_slAux s [] ln hln c hc with h1 | h1
      · exact h c h1
      · simp at h1
    rw [← hmap, pyStrip_eq_nil_of_all hall]
    simp

theorem normLines_mem_ne_nil {s : List Char} {l : List Char}
    (h : l ∈ normLines s) : l ≠ [] := by
  unfold normLines at h
  rw [List.mem_filter] at h
  intro hnil
  rw [hnil] at h
  simp at h

theorem joinSpace_ne_nil {ln0 : List Char} (h : ln0 ≠ []) (rest : List (List Char)) :
    joinSpace (ln0 :: rest) ≠ [] := by
  cases rest with
  | nil =>
    simp [joinSpace, List.intercalate]
    exact h
  | cons l2 t =>
    simp [joinSpace, List.intercalate, List.intersperse, h]

/-- Splitting `takeWhile`/`dropWhile` at the first non-satisfying
character. -/
theorem takeWhile_append_not (p : Char → Bool) :
    ∀ (d : List Char), (∀ c ∈ d, p c = true) → ∀ {x : Char}, p x = false →
      ∀ (t : List Char),
        (d ++ x :: t).takeWhile p = d ∧ (d ++ x :: t).dropWhile p = x :: t := by
  intro d
  induction d with
  | nil =>
    intro _ x hx t
    simp [List.takeWhile_cons, List.dropWhile_cons, hx]
  | cons a d ih =>
    intro h x hx t
    have ha : p a = true := h a (List.mem_cons_self _ _)
    have hd : ∀ c ∈ d, p c = true := fun c hc => h c (List.mem_cons_of_mem _ hc)
    obtain ⟨h1, h2⟩ := ih hd hx t
    constructor
    · rw [List.cons_append, List.takeWhile_cons_of_pos ha, h1]
    · rw [List.cons_append, List.dropWhile_cons_of_pos ha, h2]

/-- The well-formedness invariant of every `NumTok` produced by
`scanNum`. -/
def goodNum (n : NumTok) : Prop :=
  n.intPart ≠ [] ∧ (∀ c ∈ n.intPart, c.isDigit = true) ∧
    ∀ f, n.fracPart = some f → f ≠ [] ∧ ∀ c ∈ f, c.isDigit = true

theorem scanNum_good {s : List Char} {n : NumTok} {r : List Char}
    (h : scanNum s = some (n, r)) : goodNum n := by
  unfold scanNum at h
  split at h
  · simp at h
  · rename_i hd
    have hne : s.takeWhile Char.isDigit ≠ [] := by
      intro hnil
      rw [hnil] at hd
      simp at hd
    have hall : ∀ c ∈ s.takeWhile Char.isDigit, c.isDigit = true :=
      fun c hc => List.mem_takeWhile_imp hc
    split at h
    · rename_i r2 heq
      split at h
      · simp only [Option.some.injEq, Prod.mk.injEq] at h
        rw [← h.1]
        exact ⟨hne, hall, by simp⟩
      · rename_i hf
        simp only [Option.some.injEq, Prod.mk.injEq] at h
        rw [← h.1]
        refine ⟨hne, hall, ?_⟩
        intro f hf2
        simp only [Option.some.injEq] at hf2
        rw [← hf2]
        refine ⟨?_, fun c hc => List.mem_takeWhile_imp hc⟩
        intro hnil
        rw [hnil] at hf
        simp at hf
    · simp only [Option.some.injEq, Prod.mk.injEq] at h
      rw [← h.1]
      exact ⟨hne, hall, by simp⟩

theorem to_float_render_isSome {n : NumTok} (hg : goodNum n) :
    (to_float (render n)).isSome = true := by
  obtain ⟨hne, hall, hfrac⟩ := hg
  cases hF : n.fracPart with
  | none =>
    have hrender : render n = n.intPart := by
      unfold render
      rw [hF]
      simp
    rw [hrender]
    unfold to_float
    rw [List.dropWhile_eq_nil_iff.mpr hall]
    rw [List.takeWhile_eq_self_iff.mpr hall]
    simp [hne]
  | some f =>
    obtain ⟨hfne, hfall⟩ := hfrac f hF
    have hrender : render n = n.intPart ++ '.' :: f := by
      unfold render
      rw [hF]
    rw [hrender]
    have hdot : Char.isDigit '.' = false := by decide
    obtain ⟨hT, hD⟩ := takeWhile_append_not Char.isDigit n.intPart hall hdot f
    unfold to_float
    rw [hD, hT]
    simp [List.dropWhile_eq_nil_iff, List.takeWhile_eq_self_iff, hfall, hne,
      List.isEmpty_iff]
    exact hfall

theorem matchNumB_parses {s cap : List Char} (h : matchNumB s = some cap) :
    (to_float cap).isSome = true := by
  unfold matchNumB at h
  split at h
  · simp at h
  · rename_i n r hscan
    have hg : goodNum n := scanNum_good hscan
    split at h
    · simp only [Option.some.injEq] at h
      rw [← h]
      exact to_float_render_isSome hg
    · split at h
      · rename_i f hf
        simp only [Option.some.injEq] at h
        rw [← h]
        have hg2 : goodNum ⟨n.intPart, none⟩ := ⟨hg.1, hg.2.1, by simp⟩
        have := to_float_render_isSome hg2
        unfold render at this
        simpa using this
      · simp at h

theorem searchNumUnit_parses {units : List (List Char)} :
    ∀ {ln cap : List Char}, searchNumUnit units ln = some cap →
      (to_float cap).isSome = true := by
  intro ln
  induction ln with
  | nil =>
    intro cap h
    simp [searchNumUnit] at h
  | cons c rest ih =>
    intro cap h
    rw [searchNumUnit] at h
    split at h
    · rename_i n r hanch
      have hg : goodNum n := by
        unfold anchoredNumUnit at hanch
        split at hanch
        · simp at hanch
        · rename_i n' r' hscan
          split at hanch
          · simp only [Option.some.injEq, Prod.mk.injEq] at hanch
            rw [← hanch.1]
            exact scanNum_good hscan
          · simp at hanch
      simp only [Option.some.injEq] at h
      rw [← h]
      exact to_float_render_isSome hg
    · exact ih h

theorem searchYen_parses :
    ∀ {ln cap : List Char}, searchYen ln = some cap → (to_float cap).isSome = true := by
  intro ln
  induction ln with
  | nil =>
    intro cap h
    simp [searchYen] at h
  | cons c rest ih =>
    intro cap h
    rw [searchYen] at h
    split at h
    · split at h
      · rename_i cap' hm
        simp only [Option.some.injEq] at h
        rw [← h]
        exact matchNumB_parses hm
      · exact ih h
    · exact ih h

theorem searchRMB_parses :
    ∀ {ln cap : List Char}, searchRMB ln = some cap → (to_float cap).isSome = true := by
  intro ln
  induction ln with
  | nil =>
    intro cap h
    simp [searchRMB] at h
  | cons c rest ih =>
    intro cap h
    rw [searchRMB] at h
    split at h
    · split at h
      · rename_i cap' hm
        simp only [Option.some.injEq] at h
        rw [← h]
        exact matchNumB_parses hm
      · exact ih h
    · exact ih h

theorem searchQtyLabel_parses :
    ∀ {ln cap : List Char}, searchQtyLabel ln = some cap → (to_float cap).isSome = true := by
  intro ln
  induction ln with
  | nil =>
    intro cap h
    simp [searchQtyLabel] at h
  | cons c rest ih =>
    intro cap h
    rw [searchQtyLabel] at h
    split at h
    · split at h
      · rename_i cap' hm
        simp only [Option.some.injEq] at h
        rw [← h]
        exact matchNumB_parses hm
      · exact ih h
    · exact ih h

theorem price_capture_line_parses {ln cap : List Char}
    (h : price_capture_line ln = some cap) : (to_float cap).isSome = true := by
  unfold price_capture_line at h
  split at h
  · rename_i cap' h1
    simp only [Option.some.injEq] at h
    rw [← h]
    exact searchNumUnit_parses h1
  · split at h
    · rename_i cap' h2
      simp only [Option.some.injEq] at h
      rw [← h]
      exact searchYen_parses h2
    · exact searchRMB_parses h

theorem qty_capture_line_parses {ln cap : List Char}
    (h : qty_capture_line ln = some cap) : (to_float cap).isSome = true := by
  unfold qty_capture_line at h
  split at h
  · rename_i cap' h1
    simp only [Option.some.injEq] at h
    rw [← h]
    exact searchNumUnit_parses h1
  · exact searchQtyLabel_parses h

/-- When every capture parses, the source's parse-failure plumbing
coincides with "first capture in line-major, pattern-minor order, then
parse". -/
theorem firstParsed_eq_findSome (cap : List Char → Option (List Char))
    (hp : ∀ ln c, cap ln = some c → (to_float c).isSome = true) :
    ∀ lns, firstParsed cap lns = (lns.findSome? cap).bind to_float := by
  intro lns
  induction lns with
  | nil => rfl
  | cons ln rest ih =>
    rw [firstParsed, List.findSome?_cons]
    cases hc : cap ln with
    | none =>
      simp only []
      rw [ih]
    | some c =>
      have hsome := hp ln c hc
      cases ht : to_float c with
      | none =>
        rw [ht] at hsome
        simp at hsome
      | some v => simp [ht]

theorem pmax_zero_nonneg (v : ℚ) : 0 ≤ pmax 0 v := by
  unfold pmax
  split
  · linarith
  · linarith

theorem clamp_le_one (v : ℚ) : pmax 0 (pmin 1 v) ≤ 1 := by
  unfold pmax pmin
  by_cases h1 : v < 1
  · rw [if_pos h1]
    split
    · linarith
    · linarith
  · rw [if_neg h1]
    split
    · linarith
    · linarith

theorem clamp_cases (v : ℚ) :
    pmax 0 (pmin 1 v) = 0 ∨ pmax 0 (pmin 1 v) = 1 ∨ pmax 0 (pmin 1 v) = v := by
  unfold pmax pmin
  by_cases h1 : v < 1
  · rw [if_pos h1]
    by_cases h2 : (0 : ℚ) < v
    · rw [if_pos h2]
      right; right; rfl
    · rw [if_neg h2]
      left; rfl
  · rw [if_neg h1]
    rw [if_pos (by norm_num : (0 : ℚ) < 1)]
    right; left; rfl

theorem clamp_round2_hundredths (S : ℚ) :
    ∃ n : ℤ, pmax 0 (pmin 1 (round2 S)) = n / 100 := by
  rcases clamp_cases (round2 S) with h | h | h
  · exact ⟨0, by rw [h]; norm_num⟩
  · exact ⟨100, by rw [h]; norm_num⟩
  · exact ⟨roundHalfEven (S * 100), by rw [h]; rfl⟩

theorem priceBonus_cases (L : List (List Char)) :
    priceBonus L = 20 / 100 ∨ priceBonus L = 0 := by
  unfold priceBonus
  split
  · left; rfl
  · right; rfl

theorem specBonus_cases (L : List (List Char)) :
    specBonus L = 15 / 100 ∨ specBonus L = 0 := by
  unfold specBonus
  split
  · left; rfl
  · right; rfl

theorem qtyBonus_cases (L : List (List Char)) :
    qtyBonus L = 10 / 100 ∨ qtyBonus L = 0 := by
  unfold qtyBonus
  split
  · left; rfl
  · right; rfl

theorem nameBonus_cases (first : List Char) :
    nameBonus first = 5 / 100 ∨ nameBonus first = 15 / 100 := by
  unfold nameBonus
  split
  · left; rfl
  · right; rfl

theorem mem_of_mem_pyStrip {s : List Char} {c : Char} (h : c ∈ pyStrip s) : c ∈ s := by
  unfold pyStrip at h
  rw [List.mem_reverse] at h
  have h2 := (List.dropWhile_sublist isPySpace).subset h
  rw [List.mem_reverse] at h2
  exact (List.dropWhile_sublist isPySpace).subset h2

theorem pyToUpper_of_space {c : Char} (h : isPySpace c = true) : pyToUpper c = c := by
  unfold pyToUpper
  rw [if_neg]
  simp only [isPySpace, Bool.or_eq_true, Bool.and_eq_true, decide_eq_true_eq,
    beq_iff_eq] at h
  simp only [Bool.and_eq_true, decide_eq_true_eq, not_and]
  omega

theorem pyContainsSub_false_of_space {a : Char} {pat : List Char}
    (ha : ∀ c, isPySpace c = true → (a == c) = false) :
    ∀ {t : List Char}, (∀ c ∈ t, isPySpace c = true) →
      pyContainsSub (a :: pat) t = false := by
  intro t
  induction t with
  | nil =>
    intro _
    simp [pyContainsSub]
  | cons c rest ih =>
    intro h
    rw [pyContainsSub]
    have hc := h c (List.mem_cons_self _ _)
    have hpre : (a :: pat).isPrefixOf (c :: rest) = false := by
      simp only [List.isPrefixOf, Bool.and_eq_false_iff]
      left
      exact ha c hc
    rw [hpre]
    simp only [Bool.false_or]
    exact ih (fun c hc => h c (List.mem_cons_of_mem _ hc))

theorem detectUSD_false_of_space {t : List Char}
    (h : ∀ c ∈ t, isPySpace c = true) : detectUSD t = false := by
  unfold detectUSD
  have h1 : pyContainsSub ['$'] t = false := by
    apply pyContainsSub_false_of_space
    · intro c hc
      rw [beq_eq_false_iff_ne]
      intro he
      rw [← he] at hc
      exact absurd hc (by decide)
    · exact h
  have h2 : pyContainsSub usdChars (pyUpper t) = false := by
    have hup : ∀ c ∈ pyUpper t, isPySpace c = true := by
      intro c hc
      rw [pyUpper, List.mem_map] at hc
      obtain ⟨d, hd, hde⟩ := hc
      have hds := h d hd
      rw [← hde, pyToUpper_of_space hds]
      exact hds
    apply pyContainsSub_false_of_space
    · intro c hc
      rw [beq_eq_false_iff_ne]
      intro he
      rw [← he] at hc
      exact absurd hc (by decide)
    · exact hup
  rw [h1, h2]
  rfl

/-- C1: empty or whitespace-only input yields the zero record: all four
optional fields unset, confidence exactly 0, `source_text` the trimmed
input (necessarily `[]` here), currency the default `"CNY"`; no extractor
pass contributes. -/
theorem spec_c1_empty_input (raw : List Char) (h : ∀ c ∈ raw, isPySpace c = true) :
    extract_procurement_fields raw =
      { item_name := none, specification := none, quantity := none, unit_price := none
        currency := cnyChars, source_text := pyStrip raw, confidence := 0 } := by
  have hL : normLines (pyStrip raw) = [] := by
    rw [normLines_eq_nil_iff]
    intro c hc
    exact h c (mem_of_mem_pyStrip hc)
  exact extract_eq_zero hL

theorem spec_c1_empty_input_witness :
    (∀ c ∈ (" \t ".data), isPySpace c = true) ∧
    extract_procurement_fields " \t ".data =
      { item_name := none, specification := none, quantity := none, unit_price := none
        currency := cnyChars, source_text := pyStrip " \t ".data, confidence := 0 } :=
  ⟨by decide, spec_c1_empty_input " \t ".data (by decide)⟩

/-- C2: confidence is always in `[0,1]` with at most two decimal places,
and equals the clamp of the rounded sum of the base `0.50` and the fixed
bonuses of the extractors that succeeded (`+0.20` price, `+0.15`
specification, `+0.10` quantity, `+0.15`/`+0.05` item name); zero-line
input forces exactly `0`. -/
theorem spec_c2_confidence (raw : List Char) :
    (0 ≤ (extract_procurement_fields raw).confidence ∧
      (extract_procurement_fields raw).confidence ≤ 1 ∧
      ∃ n : ℤ, (extract_procurement_fields raw).confidence = n / 100) ∧
    (extract_procurement_fields raw).confidence =
      (match normLines (pyStrip raw) with
       | [] => 0
       | ln0 :: rest =>
         pmax 0 (pmin 1 (round2 ((((1 / 2 +
           (if (found_price (ln0 :: rest)).isSome then 20 / 100 else 0)) +
           (if (found_spec (ln0 :: rest)).isSome then 15 / 100 else 0)) +
           (if (found_qty (ln0 :: rest)).isSome then 10 / 100 else 0)) +
           (if (cleaned_first ln0).isEmpty then 5 / 100 else 15 / 100))))) := by
  cases hL : normLines (pyStrip raw) with
  | nil =>
    rw [extract_eq_zero hL]
    refine ⟨⟨by norm_num, by norm_num, ⟨0, by norm_num⟩⟩, rfl⟩
  | cons ln0 rest =>
    rw [extract_eq_assemble hL]
    constructor
    · exact ⟨pmax_zero_nonneg _, clamp_le_one _, clamp_round2_hundredths _⟩
    · rfl

/-- C4 counterexample: on the whitespace-only input `" "`, `source_text`
is the empty string although the input is non-empty, so "never the empty
string unless the input was empty" fails as stated. -/
theorem spec_c4_source_text_counterexample :
    (extract_procurement_fields [' ']).source_text = [] ∧ ([' '] : List Char) ≠ [] := by
  constructor
  · decide
  · decide

/-- C4 (amended): `source_text` is the space-join of the normalized lines,
or the trimmed raw input when no line survives; it is empty exactly when
the TRIMMED input is empty (i.e. the input is empty or whitespace-only). -/
theorem spec_c4_source_text_amended (raw : List Char) :
    (extract_procurement_fields raw).source_text =
      (match normLines (pyStrip raw) with
       | [] => pyStrip raw
       | ln0 :: rest => joinSpace (ln0 :: rest)) ∧
    ((extract_procurement_fields raw).source_text = [] ↔ pyStrip raw = []) := by
  cases hL : normLines (pyStrip raw) with
  | nil =>
    rw [extract_eq_zero hL]
    exact ⟨rfl, Iff.rfl⟩
  | cons ln0 rest =>
    rw [extract_eq_assemble hL]
    refine ⟨rfl, ?_⟩
    have hne : ln0 ≠ [] := by
      apply normLines_mem_ne_nil (s := pyStrip raw)
      rw [hL]
      exact List.mem_cons_self _ _
    have hjoin : joinSpace (ln0 :: rest) ≠ [] := joinSpace_ne_nil hne rest
    constructor
    · intro hsrc
      exact absurd hsrc hjoin
    · intro hstrip
      have : normLines (pyStrip raw) = [] := by
        rw [hstrip]
        rfl
      rw [hL] at this
      simp at this

/-- C5: currency is `"USD"` iff the trimmed text contains a dollar sign or
the token `"USD"` case-insensitively, independently of price-pattern
success (illustrated by `"$9.99 each, 2 pieces"`, which flips the currency
while `unit_price` stays unset). -/
theorem spec_c5_currency (raw : List Char) :
    (extract_procurement_fields raw).currency =
      (if detectUSD (pyStrip raw) then usdChars else cnyChars) ∧
    ((extract_procurement_fields raw).currency = usdChars ↔
      (pyContainsSub ['$'] (pyStrip raw) ||
        pyContainsSub usdChars (pyUpper (pyStrip raw))) = true) ∧
    (extract_procurement_fields "$9.99 each, 2 pieces".data).currency = usdChars ∧
    (extract_procurement_fields "$9.99 each, 2 pieces".data).unit_price = none := by
  have heq : (extract_procurement_fields raw).currency =
      (if detectUSD (pyStrip raw) then usdChars else cnyChars) := by
    cases hL : normLines (pyStrip raw) with
    | nil =>
      rw [extract_eq_zero hL]
      have hfalse : detectUSD (pyStrip raw) = false := by
        apply detectUSD_false_of_space
        exact (normLines_eq_nil_iff (pyStrip raw)).mp hL
      rw [hfalse]
      rfl
    | cons ln0 rest =>
      rw [extract_eq_assemble hL]
      rfl
  refine ⟨heq, ?_, by decide, by decide⟩
  rw [heq]
  unfold detectUSD
  cases hb : (pyContainsSub ['$'] (pyStrip raw) ||
      pyContainsSub usdChars (pyUpper (pyStrip raw))) with
  | false =>
    rw [if_neg (by simp [hb])]
    constructor
    · intro hcny
      exact absurd hcny (by decide)
    · intro hfalse
      simp at hfalse
  | true =>
    rw [if_pos (by simp [hb])]
    simp

/-- C9: whenever at least one normalized line exists, `item_name` is set
(the cleaning pipeline falls back to the whole first line), even though
the data model declares the field optional. -/
theorem spec_c9_item_name_present (raw : List Char)
    (h : normLines (pyStrip raw) ≠ []) :
    (extract_procurement_fields raw).item_name.isSome = true := by
  cases hL : normLines (pyStrip raw) with
  | nil => exact absurd hL h
  | cons ln0 rest =>
    rw [extract_eq_assemble hL]
    rfl

theorem spec_c9_item_name_present_witness :
    normLines (pyStrip "abc".data) ≠ [] ∧
    (extract_procurement_fields "abc".data).item_name.isSome = true :=
  ⟨by decide, spec_c9_item_name_present "abc".data (by decide)⟩

/-- C10: any input with at least one normalized line has confidence at
least `0.55` (base `0.50` plus the unconditional item-name bonus of at
least `0.05`), in particular never `0`. -/
theorem spec_c10_confidence_lower_bound (raw : List Char)
    (h : normLines (pyStrip raw) ≠ []) :
    11 / 20 ≤ (extract_procurement_fields raw).confidence ∧
    (extract_procurement_fields raw).confidence ≠ 0 := by
  cases hL : normLines (pyStrip raw) with
  | nil => exact absurd hL h
  | cons ln0 rest =>
    rw [extract_eq_assemble hL]
    show 11 / 20 ≤ pmax 0 (pmin 1 (round2 _)) ∧ pmax 0 (pmin 1 (round2 _)) ≠ 0
    rcases priceBonus_cases (ln0 :: rest) with hp | hp <;>
      rcases specBonus_cases (ln0 :: rest) with hs | hs <;>
        rcases qtyBonus_cases (ln0 :: rest) with hq | hq <;>
          rcases nameBonus_cases ln0 with hn | hn <;>
            rw [hp, hs, hq, hn] <;>
              constructor <;> with_unfolding_all decide

theorem spec_c10_confidence_lower_bound_witness :
    normLines (pyStrip "abcd".data) ≠ [] ∧
    11 / 20 ≤ (extract_procurement_fields "abcd".data).confidence :=
  ⟨by decide, (spec_c10_confidence_lower_bound "abcd".data (by decide)).1⟩

/-- A tail whose head cannot continue a number token, start its fraction,
or be skipped by `\s*`. -/
def neutralHead (t : List Char) : Bool :=
  match t with
  | [] => true
  | c :: _ => !c.isDigit && !(c == '.') && !isPySpace c

theorem beq_false_of_not_digit {a c : Char} (ha : a.isDigit = false)
    (hc : c.isDigit = true) : (a == c) = false := by
  rw [beq_eq_false_iff_ne]
  intro he
  subst he
  rw [ha] at hc
  cases hc

theorem scanNum_digits_append {ds t : List Char} (hne : ds ≠ [])
    (hds : ∀ c ∈ ds, c.isDigit = true) (ht : neutralHead t = true) :
    scanNum (ds ++ t) = some (⟨ds, none⟩, t) := by
  have hEmpty : ¬ ds.isEmpty = true := by
    simp [List.isEmpty_iff, hne]
  cases t with
  | nil =>
    rw [List.append_nil]
    unfold scanNum
    rw [List.takeWhile_eq_self_iff.mpr hds, List.dropWhile_eq_nil_iff.mpr hds,
      if_neg hEmpty]
  | cons c t' =>
    simp only [neutralHead, Bool.and_eq_true, Bool.not_eq_true', beq_eq_false_iff_ne] at ht
    obtain ⟨⟨h1, h2⟩, h3⟩ := ht
    obtain ⟨hT, hD⟩ := takeWhile_append_not Char.isDigit ds hds h1 t'
    unfold scanNum
    rw [hT, hD, if_neg hEmpty]
    split
    · rename_i r2 heq
      rw [List.cons.injEq] at heq
      exact absurd heq.1 h2
    · rfl

theorem dropWhile_space_neutral {t : List Char} (ht : neutralHead t = true) :
    t.dropWhile isPySpace = t := by
  cases t with
  | nil => rfl
  | cons c t' =>
    simp only [neutralHead, Bool.and_eq_true, Bool.not_eq_true'] at ht
    exact List.dropWhile_cons_of_neg (by simp [ht.2])

theorem anchoredNumUnit_digits_append {units : List (List Char)} {ds t : List Char}
    (hne : ds ≠ []) (hds : ∀ c ∈ ds, c.isDigit = true) (ht : neutralHead t = true)
    (hm : matchUnits units t = none) : anchoredNumUnit units (ds ++ t) = none := by
  unfold anchoredNumUnit
  rw [scanNum_digits_append hne hds ht]
  simp only []
  rw [dropWhile_space_neutral ht, hm]

theorem searchNumUnit_digits_append {units : List (List Char)} {t : List Char}
    (ht : neutralHead t = true) (hm : matchUnits units t = none) :
    ∀ ds : List Char, (∀ c ∈ ds, c.isDigit = true) →
      searchNumUnit units (ds ++ t) = searchNumUnit units t := by
  intro ds
  induction ds with
  | nil =>
    intro _
    rw [List.nil_append]
  | cons c ds ih =>
    intro hall
    have h1 : anchoredNumUnit units ((c :: ds) ++ t) = none :=
      anchoredNumUnit_digits_append (by simp) hall ht hm
    rw [List.cons_append] at h1
    rw [List.cons_append, searchNumUnit, h1]
    exact ih (fun c hc => hall c (List.mem_cons_of_mem _ hc))

theorem hasSpecLabel_digits_append (t : List Char) :
    ∀ ds : List Char, (∀ c ∈ ds, c.isDigit = true) →
      hasSpecLabel (ds ++ t) = hasSpecLabel t := by
  intro ds
  induction ds with
  | nil =>
    intro _
    rw [List.nil_append]
  | cons c ds ih =>
    intro hall
    have hc : c.isDigit = true := hall c (List.mem_cons_self _ _)
    have hx : ('型' == c) = false := beq_false_of_not_digit (by decide) hc
    have hg : ('规' == c) = false := beq_false_of_not_digit (by decide) hc
    have hch : ('尺' == c) = false := beq_false_of_not_digit (by decide) hc
    rw [List.cons_append, hasSpecLabel]
    simp only [specLabels, List.any_cons, List.any_nil, List.isPrefixOf, hx, hg, hch,
      Bool.false_and, Bool.and_false, Bool.or_self, Bool.false_or, Bool.or_false]
    exact ih (fun c hc => hall c (List.mem_cons_of_mem _ hc))

theorem searchQtyLabel_digits_append (t : List Char) :
    ∀ ds : List Char, (∀ c ∈ ds, c.isDigit = true) →
      searchQtyLabel (ds ++ t) = searchQtyLabel t := by
  intro ds
  induction ds with
  | nil =>
    intro _
    rw [List.nil_append]
  | cons c ds ih =>
    intro hall
    have hc : c.isDigit = true := hall c (List.mem_cons_self _ _)
    have hs : ('数' == c) = false := beq_false_of_not_digit (by decide) hc
    rw [List.cons_append, searchQtyLabel]
    rw [if_neg (by simp [qtyLabel, List.isPrefixOf, hs])]
    exact ih (fun c hc => hall c (List.mem_cons_of_mem _ hc))

/-- C3: the quantity and specification extractors use mutually exclusive
unit vocabularies; a numeric token followed by the countable unit `个` can
never trigger any specification pattern, a numeric token followed by the
length unit `米` or the power unit `W` can never be captured by the
quantity patterns, and on the spec's examples `"3个"`, `"3.4米"`, `"5W"`
the fields land accordingly. -/
theorem spec_c3_unit_vocabularies :
    (∀ u ∈ specUnits1 ++ specUnits2 ++ specUnits3, u ∉ qtyUnits) ∧
    (∀ ds : List Char, ds ≠ [] → (∀ c ∈ ds, c.isDigit = true) →
      specLineMatch (ds ++ ['个']) = false ∧
      qty_capture_line (ds ++ ['米']) = none ∧
      qty_capture_line (ds ++ ['W']) = none) ∧
    ((extract_procurement_fields "3个".data).specification = none ∧
      (extract_procurement_fields "3个".data).quantity = some 3) ∧
    ((extract_procurement_fields "3.4米".data).quantity = none ∧
      (extract_procurement_fields "3.4米".data).specification = some "3.4米".data) ∧
    ((extract_procurement_fields "5W".data).quantity = none ∧
      (extract_procurement_fields "5W".data).specification = some "5W".data) := by
  refine ⟨by decide, ?_, ⟨by decide, by decide⟩, ⟨by decide, by decide⟩,
    ⟨by decide, by decide⟩⟩
  intro ds _ hds
  refine ⟨?_, ?_, ?_⟩
  · unfold specLineMatch
    rw [searchNumUnit_digits_append (by decide) (by decide) ds hds,
      searchNumUnit_digits_append (by decide) (by decide) ds hds,
      searchNumUnit_digits_append (by decide) (by decide) ds hds,
      hasSpecLabel_digits_append _ ds hds]
    decide
  · unfold qty_capture_line
    rw [searchNumUnit_digits_append (by decide) (by decide) ds hds,
      searchQtyLabel_digits_append _ ds hds]
    decide
  · unfold qty_capture_line
    rw [searchNumUnit_digits_append (by decide) (by decide) ds hds,
      searchQtyLabel_digits_append _ ds hds]
    decide

theorem spec_c3_unit_vocabularies_witness :
    specLineMatch (['3'] ++ ['个']) = false ∧
    qty_capture_line (['3'] ++ ['米']) = none ∧
    qty_capture_line (['3'] ++ ['W']) = none :=
  spec_c3_unit_vocabularies.2.1 ['3'] (by decide) (by decide)

/-- C6: `unit_price` is the first price capture in line-major,
pattern-minor order (pattern 1 `数字+元/块`, then `￥数字`, then
`RMB 数字` within each line), parsed as a float; parsing a capture never
fails (so the degradation path for unparseable captures is never an
error), and the `+0.20` bonus is credited exactly when `unit_price` is
set. -/
theorem spec_c6_price_extractor (raw : List Char) :
    (extract_procurement_fields raw).unit_price =
      ((normLines (pyStrip raw)).findSome? price_capture_line).bind to_float ∧
    (((normLines (pyStrip raw)).findSome? price_capture_line).bind to_float).isSome =
      ((normLines (pyStrip raw)).findSome? price_capture_line).isSome ∧
    priceBonus (normLines (pyStrip raw)) =
      (if (extract_procurement_fields raw).unit_price.isSome then 20 / 100 else 0) := by
  have hkey : ∀ L : List (List Char), firstParsed price_capture_line L =
      (L.findSome? price_capture_line).bind to_float :=
    firstParsed_eq_findSome price_capture_line
      (fun ln c h => price_capture_line_parses h)
  have h1 : (extract_procurement_fields raw).unit_price =
      ((normLines (pyStrip raw)).findSome? price_capture_line).bind to_float := by
    cases hL : normLines (pyStrip raw) with
    | nil =>
      rw [extract_eq_zero hL]
      rfl
    | cons ln0 rest =>
      rw [extract_eq_assemble hL]
      show found_price (ln0 :: rest) = _
      rw [found_price, hkey]
  refine ⟨h1, ?_, ?_⟩
  · cases hF : (normLines (pyStrip raw)).findSome? price_capture_line with
    | none => rfl
    | some c =>
      obtain ⟨ln, hln, hcap⟩ := List.exists_of_findSome?_eq_some hF
      simp only [Option.some_bind]
      rw [price_capture_line_parses hcap]
      rfl
  · rw [h1]
    unfold priceBonus
    rw [found_price, hkey]

/-- C7 counterexample: on the single-line input `"a\t价格"` the cleaned
item name keeps its trailing tab, because the final trim removes only the
characters of `" ,，:：-—/"`, not all whitespace — contradicting "trims
surrounding whitespace". -/
theorem spec_c7_item_name_counterexample :
    (extract_procurement_fields "a\t价格".data).item_name = some ['a', '\t'] ∧
    isPySpace '\t' = true := by
  constructor
  · decide
  · decide

/-- C7 (amended): the item-name extractor reads only the first normalized
line; it removes the fixed filler phrases in fixed order by literal
substring removal, strips `数字+长度/功率单位` substrings, and trims the
surrounding characters of the fixed set `" ,，:：-—/"` (the space character
and punctuation, NOT all whitespace); a non-empty cleaned string becomes
`item_name` with bonus `+0.15`, otherwise the original first line with
bonus `+0.05`. -/
theorem spec_c7_item_name_amended (raw ln0 : List Char) (rest : List (List Char))
    (h : normLines (pyStrip raw) = ln0 :: rest) :
    (extract_procurement_fields raw).item_name =
      some (if (cleaned_first ln0).isEmpty then ln0 else cleaned_first ln0) ∧
    cleaned_first ln0 =
      stripBoth stripSet
        (subNumUnit nameUnits (noisy_words.foldl (fun acc w => removeAll w acc) ln0)) ∧
    nameBonus ln0 = (if (cleaned_first ln0).isEmpty then 5 / 100 else 15 / 100) := by
  rw [extract_eq_assemble h]
  exact ⟨rfl, rfl, rfl⟩

theorem spec_c7_item_name_amended_witness :
    normLines (pyStrip "灯带3.4米".data) = ["灯带3.4米".data] ∧
    (extract_procurement_fields "灯带3.4米".data).item_name =
      some (if (cleaned_first "灯带3.4米".data).isEmpty then "灯带3.4米".data
            else cleaned_first "灯带3.4米".data) :=
  ⟨by decide,
    (spec_c7_item_name_amended "灯带3.4米".data "灯带3.4米".data [] (by decide)).1⟩

/-- C8: the first testable scenario of the spec, checked field by field:
`specification` is the whole first line, `unit_price` is `3.8` (`19/5`),
`currency` stays `"CNY"`, `item_name` is the first line with the length
token stripped (`"灯带"`), `quantity` is unset, and confidence is the
base plus the price, specification and item-name bonuses (no quantity
bonus), clamped to `1`. -/
theorem spec_c8_scenario_one :
    extract_procurement_fields "灯带3.4米\n价格已经很便宜了,\n3.8元\n你要不要".data =
    { item_name := some "灯带".data
      specification := some "灯带3.4米".data
      quantity := none
      unit_price := some (19 / 5)
      currency := "CNY".data
      source_text := "灯带3.4米 价格已经很便宜了, 3.8元 你要不要".data
      confidence := pmax 0 (pmin 1 (round2 ((((1 / 2 + 20 / 100) + 15 / 100) + 0) +
        15 / 100))) } := by
  have hL : normLines (pyStrip "灯带3.4米\n价格已经很便宜了,\n3.8元\n你要不要".data) =
      ["灯带3.4米".data, "价格已经很便宜了,".data, "3.8元".data, "你要不要".data] := by
    decide
  rw [extract_eq_assemble hL]
  unfold assemble
  rw [ProcurementRecord.mk.injEq]
  refine ⟨?_, ?_, ?_, ?_, ?_, ?_, ?_⟩
  · decide
  · decide
  · decide
  · with_unfolding_all decide
  · decide
  · decide
  · have hp : priceBonus ["灯带3.4米".data, "价格已经很便宜了,".data, "3.8元".data,
        "你要不要".data] = 20 / 100 := by
      unfold priceBonus
      rw [show (found_price ["灯带3.4米".data, "价格已经很便宜了,".data, "3.8元".data,
        "你要不要".data]).isSome = true from by decide]
      rfl
    have hs : specBonus ["灯带3.4米".data, "价格已经很便宜了,".data, "3.8元".data,
        "你要不要".data] = 15 / 100 := by
      unfold specBonus
      rw [show (found_spec ["灯带3.4米".data, "价格已经很便宜了,".data, "3.8元".data,
        "你要不要".data]).isSome = true from by decide]
      rfl
    have hq : qtyBonus ["灯带3.4米".data, "价格已经很便宜了,".data, "3.8元".data,
        "你要不要".data] = 0 := by
      unfold qtyBonus
      rw [show (found_qty ["灯带3.4米".data, "价格已经很便宜了,".data, "3.8元".data,
        "你要不要".data]).isSome = false from by decide]
      rfl
    have hn : nameBonus "灯带3.4米".data = 15 / 100 := by
      unfold nameBonus
      rw [show (cleaned_first "灯带3.4米".data).isEmpty = false from by decide]
      rfl
    rw [hp, hs, hq, hn]

end Procurement
